import Mathlib

/-!
Shallow embedding of the PanicLabSim core (card/ring data model, topology
builder, traversal engine and Monte Carlo driver) from `card.py` and
`simulator.py`, together with theorems checking the specification's claims.

Python objects are modelled as follows: cards live in one list, neighbor
references are indices into that list (`Wiring` maps an index to the optional
index of its clockwise / counter-clockwise neighbor; `none` models an unset
neighbor, whose dereference raises in Python), Python's stateful
`random.Random` is a deterministic stream of naturals together with a cursor,
and a computation that the Python code would never finish (the unbounded
`while` loop in `_walk_to_non_vent` when every card is a vent) is modelled by
`Option.none`.
-/

namespace PanicLab

/-- `Direction` enum from `card.py`. -/
inductive Direction where
  | CLK_WISE
  | COUNTER_CLK_WISE
deriving DecidableEq, Repr, Inhabited

/-- `LabColor` enum from `card.py`. -/
inductive LabColor where
  | RED
  | GREEN
  | YELLOW
deriving DecidableEq, Repr, Inhabited

/-- `AmoebaColor` enum from `card.py`. -/
inductive AmoebaColor where
  | RED
  | BLUE
deriving DecidableEq, Repr, Inhabited

/-- `Pattern` enum from `card.py`. -/
inductive Pattern where
  | STRIPED
  | DOTTY
deriving DecidableEq, Repr, Inhabited

/-- `Eye` enum from `card.py`. -/
inductive Eye where
  | SINGLE
  | DOUBLE
deriving DecidableEq, Repr, Inhabited

/-- `list(Direction)`: the members of the enum in declaration order. -/
def Direction.members : List Direction := [.CLK_WISE, .COUNTER_CLK_WISE]

/-- `list(AmoebaColor)`: the members of the enum in declaration order. -/
def AmoebaColor.members : List AmoebaColor := [.RED, .BLUE]

/-- `list(Pattern)`: the members of the enum in declaration order. -/
def Pattern.members : List Pattern := [.STRIPED, .DOTTY]

/-- `list(Eye)`: the members of the enum in declaration order. -/
def Eye.members : List Eye := [.SINGLE, .DOUBLE]

/-- `_rotate_enum_value` from `card.py`: return the next value in an enum,
wrapping around.  The Python function recovers the member list from the
member's class at runtime; here the declaration-order member list is passed
explicitly. -/
def _rotate_enum_value {α : Type} [BEq α] (members : List α) (member : α) : α :=
  members.getD ((members.indexOf member + 1) % members.length) member

/-- `Configuration` dataclass from `card.py` (value equality on all axes). -/
structure Configuration where
  color : AmoebaColor
  pattern : Pattern
  eye : Eye
deriving DecidableEq, Repr, Inhabited

/-- `Configuration.evolve` from `card.py`: rotate the requested axes.  The
Python method mutates in place; here the updated configuration is returned. -/
def Configuration.evolve (c : Configuration)
    (evolve_color evolve_pattern evolve_eye : Bool) : Configuration :=
  let c1 := if evolve_color then
    { c with color := _rotate_enum_value AmoebaColor.members c.color } else c
  let c2 := if evolve_pattern then
    { c1 with pattern := _rotate_enum_value Pattern.members c1.pattern } else c1
  if evolve_eye then
    { c2 with eye := _rotate_enum_value Eye.members c2.eye } else c2

/-- The four card variants of `card.py` (`LabCard`, `AmoebaCard`, `VentCard`,
`EvolutionCard`) as a closed sum of payloads. -/
inductive CardKind where
  | lab (lab_color : LabColor)
  | amoeba (configuration : Configuration)
  | vent
  | evolution (evolve_color evolve_pattern evolve_eye : Bool)
deriving DecidableEq, Repr, Inhabited

/-- A card: its variant payload plus the 1-based source line number used as
its identity (`Card.__init__` in `card.py`). -/
structure Card where
  kind : CardKind
  line_number : Nat
deriving DecidableEq, Repr

instance : Inhabited Card := ⟨⟨.vent, 0⟩⟩

/-- The kind of the card stored at index `i` (out-of-range indices are never
dereferenced by the embedded code paths; an arbitrary default is used). -/
def kindAt (cards : List Card) (i : Nat) : CardKind :=
  (cards.getD i default).kind

/-- `isinstance(card, VentCard)`. -/
def is_vent (c : Card) : Bool :=
  match c.kind with
  | .vent => true
  | _ => false

/-- `isinstance(card, LabCard)`. -/
def is_lab (c : Card) : Bool :=
  match c.kind with
  | .lab _ => true
  | _ => false

/-- The two neighbor references of every card, as optional indices into the
shared card list.  `none` models a neighbor that was never set
(`Card.__init__` sets both to `None`; `Card.get_next` raises on `None`). -/
structure Wiring where
  clk : Nat → Option Nat
  ccw : Nat → Option Nat

/-- The state of all neighbor references before `configure_neighbors` runs. -/
def unwired : Wiring := ⟨fun _ => none, fun _ => none⟩

/-- `Card.set_neighbors` from `card.py`: set both references of card `i`. -/
def set_neighbors (w : Wiring) (i c k : Nat) : Wiring :=
  ⟨fun j => if j = i then some c else w.clk j,
   fun j => if j = i then some k else w.ccw j⟩

/-- `Card.get_next` from `card.py`: the neighbor of card `i` in `dir`
(`none` models the `RuntimeError` raised when the neighbor is unset). -/
def get_next (w : Wiring) (i : Nat) (dir : Direction) : Option Nat :=
  match dir with
  | .CLK_WISE => w.clk i
  | .COUNTER_CLK_WISE => w.ccw i

/-- `MAX_STEPS_PER_RUN` from `simulator.py`. -/
def MAX_STEPS_PER_RUN : Nat := 100

/-- Indices of the vent cards, in ascending order (`vent_indices` in
`_link_vents`). -/
def vent_indices (cards : List Card) : List Nat :=
  (List.range cards.length).filter (fun i => is_vent (cards.getD i default))

/-- One step of `_walk_to_non_vent`: `(index + step) % num_cards` where the
Python `step` is `1` (clockwise, `cw = true`) or `-1` (counter-clockwise;
Python's `%` on a negative value equals `(index + n - 1) % n`). -/
def step_index (n : Nat) (cw : Bool) (i : Nat) : Nat :=
  if cw then (i + 1) % n else (i + n - 1) % n

/-- The `while` loop of `_walk_to_non_vent`, with explicit fuel.  The loop
visits indices cyclically, so with fuel `n` it probes every ring index; fuel
running out (result `none`) therefore models the Python loop never
terminating. -/
def _walk_aux (cards : List Card) (cw : Bool) : Nat → Nat → Option Nat
  | 0, _ => none
  | fuel + 1, index =>
    if is_vent (cards.getD index default) then
      _walk_aux cards cw fuel (step_index cards.length cw index)
    else
      some index

/-- `_walk_to_non_vent` from `simulator.py`. -/
def _walk_to_non_vent (cards : List Card) (start_index : Nat) (cw : Bool) :
    Option Nat :=
  _walk_aux cards cw cards.length (start_index % cards.length)

/-- The `for position, vent_idx in enumerate(vent_indices)` loop body of
`_link_vents`, iterating over the remaining positions `ps` into `vs`.
`none` models the loop never returning (a rerouting walk that diverges). -/
def _link_vents_aux (cards : List Card) (vs : List Nat) :
    List Nat → Wiring → Option Wiring
  | [], w => some w
  | p :: ps, w =>
    match _walk_to_non_vent cards
            ((vs.getD ((p + 1) % vs.length) 0 + 1) % cards.length) true,
          _walk_to_non_vent cards
            ((vs.getD ((p + vs.length - 1) % vs.length) 0 + cards.length - 1)
              % cards.length) false with
    | some c, some k => _link_vents_aux cards vs ps (set_neighbors w (vs.getD p 0) c k)
    | _, _ => none

/-- `_link_vents` from `simulator.py`. -/
def _link_vents (cards : List Card) (w : Wiring) : Option Wiring :=
  let vs := vent_indices cards
  if vs.length ≤ 1 then some w
  else _link_vents_aux cards vs (List.range vs.length) w

/-- `configure_neighbors` from `simulator.py`: base ring wiring (card `i`
points clockwise to `(i+1) % n` and counter-clockwise to `(i-1) % n`),
then vent rerouting.  Returns the resulting neighbor state; `none` models
the Python call never returning. -/
def configure_neighbors (cards : List Card) : Option Wiring :=
  if cards.length = 0 then some unwired
  else
    _link_vents cards
      ((List.range cards.length).foldl
        (fun w i =>
          set_neighbors w i ((i + 1) % cards.length)
            ((i + cards.length - 1) % cards.length))
        unwired)

/-- The shared ring store: the parsed card list plus the neighbor state of
all its cards. -/
structure Ring where
  cards : List Card
  w : Wiring

/-- The mutable state visible to one traversal: the ring (the card objects)
and the traveling configuration owned by the trial. -/
structure SimState where
  ring : Ring
  cfg : Configuration

/-- The `is_matched` methods of the four card variants (`card.py`), applied
to the card at index `i`: Lab and Vent never match; Amoeba matches on value
equality with its target; Evolution never matches but mutates the traveling
configuration as a side effect of being visited. -/
def is_matched (s : SimState) (i : Nat) : Bool × SimState :=
  match kindAt s.ring.cards i with
  | .lab _ => (false, s)
  | .amoeba target => (decide (target = s.cfg), s)
  | .vent => (false, s)
  | .evolution ec ep ee => (false, { s with cfg := s.cfg.evolve ec ep ee })

/-- The `for _ in range(MAX_STEPS_PER_RUN)` loop of `run_experiment`:
check the current card, return it on a match, otherwise move to its neighbor
in `dir`.  The outer `Option` models the `RuntimeError` raised by `get_next`
on an unset neighbor; the inner `Option Nat` is the matched card (its index),
`none` when the step budget ran out. -/
def run_experiment_aux (dir : Direction) :
    Nat → SimState → Nat → Option (Option Nat × SimState)
  | 0, s, _ => some (none, s)
  | fuel + 1, s, cur =>
    match is_matched s cur with
    | (true, s1) => some (some cur, s1)
    | (false, s1) =>
      match get_next s1.ring.w cur dir with
      | none => none
      | some nxt => run_experiment_aux dir fuel s1 nxt

/-- `run_experiment` from `simulator.py`. -/
def run_experiment (ring : Ring) (configuration : Configuration)
    (start : Nat) (direction : Direction) : Option (Option Nat × SimState) :=
  run_experiment_aux direction MAX_STEPS_PER_RUN ⟨ring, configuration⟩ start

/-- A seeded `random.Random`: a deterministic stream of draws plus the
cursor of the next draw.  Each `rng.choice` consumes one draw. -/
structure Rng where
  draws : Nat → Nat
  pos : Nat
deriving Inhabited

/-- `rng.choice(seq)`: pick the element selected by the next draw and
advance the source.  (Only ever applied to non-empty sequences.) -/
def Rng.choice {α : Type} [Inhabited α] (r : Rng) (seq : List α) : α × Rng :=
  (seq.getD (r.draws r.pos % seq.length) default, ⟨r.draws, r.pos + 1⟩)

/-- `lab_cards = [card for card in cards if isinstance(card, LabCard)]`,
as the ascending list of the lab cards' indices. -/
def lab_indices (cards : List Card) : List Nat :=
  (List.range cards.length).filter (fun i => is_lab (cards.getD i default))

/-- One trial of `simulate`: draw color, pattern, eye, entry lab and
direction in this order, then run one traversal.  Returns the matched card
index (if any), the ring state after the trial, and the advanced random
source; `none` models the `RuntimeError` of an unset neighbor. -/
def run_trial (ring : Ring) (labs : List Nat) (rng : Rng) :
    Option (Option Nat × Ring × Rng) :=
  let pc := Rng.choice rng AmoebaColor.members
  let pp := Rng.choice pc.2 Pattern.members
  let pe := Rng.choice pp.2 Eye.members
  let pl := Rng.choice pe.2 labs
  let pd := Rng.choice pl.2 Direction.members
  match run_experiment ring ⟨pc.1, pp.1, pe.1⟩ pl.1 pd.1 with
  | none => none
  | some (matched, s1) => some (matched, s1.ring, pd.2)

/-- `points[matched_card] += 1` (no-op when the trial matched nothing);
`none` models the `KeyError` raised when the matched card is not a key of
the result mapping. -/
def bump (points : List Nat) (matched : Option Nat) : Option (List Nat) :=
  match matched with
  | none => some points
  | some i =>
    if i < points.length then some (points.set i (points.getD i 0 + 1))
    else none

/-- What a completed `simulate` call produces: the per-card counts (indexed
by ring position), the ring state after the run, and the random source
after the run. -/
structure SimResult where
  points : List Nat
  ring : Ring
  rng : Rng

/-- The `for _ in range(experiments)` loop of `simulate`. -/
def simulate_loop (labs : List Nat) :
    Nat → Ring → Rng → List Nat → Option SimResult
  | 0, ring, rng, points => some ⟨points, ring, rng⟩
  | k + 1, ring, rng, points =>
    match run_trial ring labs rng with
    | none => none
    | some (matched, ring1, rng1) =>
      match bump points matched with
      | none => none
      | some points1 => simulate_loop labs k ring1 rng1 points1

/-- `simulate` from `simulator.py`.  `experiments` is a Python `int`
(possibly negative; `range(experiments)` is then empty).  The error value
carries the message of the raised exception; runtime errors raised inside
the loop are collapsed to one internal message. -/
def simulate (ring : Ring) (rng : Rng) (experiments : Int) :
    Except String SimResult :=
  let labs := lab_indices ring.cards
  if labs.isEmpty then
    .error "No lab cards available to start experiments."
  else
    match simulate_loop labs experiments.toNat ring rng
        (List.replicate ring.cards.length 0) with
    | none => .error "internal runtime error"
    | some res => .ok res

/-- The outcome of the `k`-th trial (0-based) of a `simulate` run started
with random source `rng`: each trial consumes exactly five draws, so trial
`k` starts at cursor `rng.pos + 5 * k`.  `some (some i)`: the trial matched
card `i`; `some none`: the trial exhausted the step budget without a match;
`none`: the trial raised. -/
def trial_outcome (ring : Ring) (labs : List Nat) (rng : Rng) (k : Nat) :
    Option (Option Nat) :=
  (run_trial ring labs ⟨rng.draws, rng.pos + 5 * k⟩).map (fun x => x.1)

/-! Specification-side notions used to state the claims. -/

/-- The ring index reached after `t` walking steps from `i` in the given
direction. -/
def iter_index (n : Nat) (cw : Bool) : Nat → Nat → Nat
  | 0, i => i
  | t + 1, i => iter_index n cw t (step_index n cw i)

/-- Index `j` holds the first non-vent card found by walking from `start`
(inclusive) in the given direction, skipping any intervening vents. -/
def FirstNonVent (cards : List Card) (cw : Bool) (start j : Nat) : Prop :=
  ∃ t, iter_index cards.length cw t start = j ∧
    is_vent (cards.getD j default) = false ∧
    ∀ s < t, is_vent (cards.getD (iter_index cards.length cw s start) default) = true

/-- The traversal state (current index, traveling configuration) reached
after visiting `t` cards, starting from `st`; each visited card applies its
configuration side effect before the walk moves on.  `none`: an unset
neighbor was dereferenced on the way. -/
def visit_after (ring : Ring) (dir : Direction) :
    Nat → Nat × Configuration → Option (Nat × Configuration)
  | 0, st => some st
  | t + 1, st =>
    match get_next ring.w st.1 dir with
    | none => none
    | some nxt =>
      visit_after ring dir t (nxt, (is_matched ⟨ring, st.2⟩ st.1).2.cfg)

/-- Whether the traversal state `st` is a match (the card at the current
index matches the current traveling configuration). -/
def matched_at (ring : Ring) (st : Nat × Configuration) : Bool :=
  (is_matched ⟨ring, st.2⟩ st.1).1

/-- Every one of the first `n` cards has both neighbor references set, and
both point back into the ring (an index below `n`). -/
def fully_wired (w : Wiring) (n : Nat) : Prop :=
  ∀ i < n, (w.clk i).getD n < n ∧ (w.ccw i).getD n < n

/-- Modelled from the spec: the cyclically next `AmoebaColor` in declaration
order (wrap after the last value). -/
def specNextColor : AmoebaColor → AmoebaColor
  | .RED => .BLUE
  | .BLUE => .RED

/-- Modelled from the spec: the cyclically next `Pattern` in declaration
order (wrap after the last value). -/
def specNextPattern : Pattern → Pattern
  | .STRIPED => .DOTTY
  | .DOTTY => .STRIPED

/-- Modelled from the spec: the cyclically next `Eye` in declaration order
(wrap after the last value). -/
def specNextEye : Eye → Eye
  | .SINGLE => .DOUBLE
  | .DOUBLE => .SINGLE

/-! Concrete inputs used by the witnesses. -/

/-- A two-card ring: one lab, one amoeba. -/
def demoCards : List Card :=
  [⟨.lab .RED, 1⟩, ⟨.amoeba ⟨.RED, .STRIPED, .SINGLE⟩, 2⟩]

/-- `demoCards` wired by the topology builder. -/
def demoRing : Ring :=
  ⟨demoCards, (configure_neighbors demoCards).getD unwired⟩

/-- A constant random stream at cursor 0. -/
def demoRng : Rng := ⟨fun _ => 0, 0⟩

/-- A five-card ring with two adjacent vents. -/
def demoCards5 : List Card :=
  [⟨.lab .GREEN, 1⟩, ⟨.vent, 2⟩, ⟨.vent, 3⟩,
   ⟨.amoeba ⟨.BLUE, .DOTTY, .DOUBLE⟩, 4⟩, ⟨.evolution true false false, 5⟩]

/-- A three-card ring with exactly one vent. -/
def demoCards3 : List Card :=
  [⟨.lab .RED, 1⟩, ⟨.vent, 2⟩, ⟨.amoeba ⟨.RED, .STRIPED, .SINGLE⟩, 3⟩]

/-! Helper lemmas. -/

theorem is_matched_ring (s : SimState) (i : Nat) :
    (is_matched s i).2.ring = s.ring := by
  unfold is_matched
  split <;> rfl

theorem run_experiment_aux_ring (dir : Direction) :
    ∀ (f : Nat) (s : SimState) (cur : Nat) (res : Option Nat × SimState),
    run_experiment_aux dir f s cur = some res → res.2.ring = s.ring := by
  intro f
  induction f with
  | zero =>
    intro s cur res h
    simp only [run_experiment_aux, Option.some.injEq] at h
    rw [← h]
  | succ f ih =>
    intro s cur res h
    simp only [run_experiment_aux] at h
    split at h
    case h_1 s1 heq =>
      simp only [Option.some.injEq] at h
      rw [← h]
      have := is_matched_ring s cur
      rw [heq] at this
      exact this
    case h_2 s1 heq =>
      split at h
      · exact absurd h (by simp)
      case h_2 nxt hnext =>
        have h1 := ih s1 nxt res h
        have h2 := is_matched_ring s cur
        rw [heq] at h2
        rw [h1, h2]

theorem run_trial_eq_some (ring : Ring) (labs : List Nat) (rng : Rng)
    (m : Option Nat) (ring1 : Ring) (rng1 : Rng)
    (h : run_trial ring labs rng = some (m, ring1, rng1)) :
    ring1 = ring ∧ rng1 = ⟨rng.draws, rng.pos + 5⟩ := by
  simp only [run_trial] at h
  split at h
  · exact absurd h (by simp)
  case h_2 matched s1 heq =>
    simp only [Option.some.injEq, Prod.mk.injEq] at h
    obtain ⟨-, hring, hrng⟩ := h
    constructor
    · rw [← hring]
      exact run_experiment_aux_ring _ _ _ _ _ heq
    · rw [← hrng]; rfl

theorem bump_none (points : List Nat) : bump points none = some points := rfl

theorem bump_some_elim (points pts : List Nat) (i : Nat)
    (h : bump points (some i) = some pts) :
    i < points.length ∧ pts = points.set i (points.getD i 0 + 1) := by
  simp only [bump] at h
  split at h
  · simp only [Option.some.injEq] at h
    exact ⟨by assumption, h.symm⟩
  · exact absurd h (by simp)

theorem sum_set_add_one : ∀ (l : List Nat) (i : Nat), i < l.length →
    (l.set i (l.getD i 0 + 1)).sum = l.sum + 1 := by
  intro l
  induction l with
  | nil => intro i h; simp at h
  | cons a t ih =>
    intro i h
    cases i with
    | zero => simp [List.set]; omega
    | succ i =>
      simp only [List.set, List.getD_cons_succ, List.sum_cons]
      have := ih i (by simpa using h)
      omega

theorem trial_outcome_zero (ring : Ring) (labs : List Nat) (rng : Rng) :
    trial_outcome ring labs rng 0 = (run_trial ring labs rng).map (fun x => x.1) := by
  simp only [trial_outcome, Nat.mul_zero, Nat.add_zero]

theorem trial_outcome_succ (ring : Ring) (labs : List Nat) (rng : Rng) (k : Nat) :
    trial_outcome ring labs rng (k + 1) =
      trial_outcome ring labs ⟨rng.draws, rng.pos + 5⟩ k := by
  simp only [trial_outcome]
  have : rng.pos + 5 * (k + 1) = rng.pos + 5 + 5 * k := by ring
  rw [this]

theorem simulate_loop_spec :
    ∀ (k : Nat) (rg : Ring) (rng : Rng) (points labs : List Nat) (res : SimResult),
    simulate_loop labs k rg rng points = some res →
    res.ring = rg ∧ res.rng = ⟨rng.draws, rng.pos + 5 * k⟩ ∧
    res.points.length = points.length ∧
    res.points.sum ≤ points.sum + k ∧
    (res.points.sum = points.sum + k ↔
      ∀ j < k, ∃ i, trial_outcome rg labs rng j = some (some i)) := by
  intro k
  induction k with
  | zero =>
    intro rg rng points labs res h
    simp only [simulate_loop, Option.some.injEq] at h
    rw [← h]
    refine ⟨rfl, rfl, rfl, by simp, by simp⟩
  | succ k ih =>
    intro rg rng points labs res h
    simp only [simulate_loop] at h
    split at h
    · exact absurd h (by simp)
    case h_2 matched ring1 rng1 heq =>
      split at h
      · exact absurd h (by simp)
      case h_2 points1 heq2 =>
        obtain ⟨hr1, hg1⟩ := run_trial_eq_some rg labs rng matched ring1 rng1 heq
        rw [hr1, hg1] at h
        have IH := ih rg ⟨rng.draws, rng.pos + 5⟩ points1 labs res h
        obtain ⟨IHr, IHg, IHl, IHle, IHiff⟩ := IH
        have hshift : ∀ j, trial_outcome rg labs rng (j + 1) =
            trial_outcome rg labs ⟨rng.draws, rng.pos + 5⟩ j := by
          intro j
          exact trial_outcome_succ rg labs rng j
        have hzero : trial_outcome rg labs rng 0 = some matched := by
          rw [trial_outcome_zero, heq]
          rfl
        refine ⟨IHr, ?_, ?_, ?_, ?_⟩
        · rw [IHg]
          show Rng.mk rng.draws (rng.pos + 5 + 5 * k) =
            Rng.mk rng.draws (rng.pos + 5 * (k + 1))
          exact congrArg (Rng.mk rng.draws) (by omega)
        · rw [IHl]
          cases matched with
          | none =>
            rw [bump_none, Option.some.injEq] at heq2
            rw [← heq2]
          | some i0 =>
            obtain ⟨hi0, hpts⟩ := bump_some_elim points points1 i0 heq2
            rw [hpts, List.length_set]
        · cases matched with
          | none =>
            rw [bump_none, Option.some.injEq] at heq2
            rw [← heq2] at IHle
            omega
          | some i0 =>
            obtain ⟨hi0, hpts⟩ := bump_some_elim points points1 i0 heq2
            have hsum : points1.sum = points.sum + 1 := by
              rw [hpts]; exact sum_set_add_one points i0 hi0
            omega
        · cases matched with
          | none =>
            rw [bump_none, Option.some.injEq] at heq2
            rw [← heq2] at IHle
            constructor
            · intro hEq
              omega
            · intro hAll
              obtain ⟨i, hi⟩ := hAll 0 (by omega)
              rw [hzero] at hi
              simp at hi
          | some i0 =>
            obtain ⟨hi0, hpts⟩ := bump_some_elim points points1 i0 heq2
            have hsum : points1.sum = points.sum + 1 := by
              rw [hpts]; exact sum_set_add_one points i0 hi0
            constructor
            · intro hEq
              intro j hj
              cases j with
              | zero => exact ⟨i0, hzero⟩
              | succ j =>
                rw [hshift j]
                exact (IHiff.mp (by omega)) j (by omega)
            · intro hAll
              have : ∀ j < k, ∃ i,
                  trial_outcome rg labs ⟨rng.draws, rng.pos + 5⟩ j = some (some i) := by
                intro j hj
                rw [← hshift j]
                exact hAll (j + 1) (by omega)
              have := IHiff.mpr this
              omega

theorem simulate_ok_elim (rg : Ring) (rng : Rng) (e : Int) (res : SimResult)
    (h : simulate rg rng e = .ok res) :
    simulate_loop (lab_indices rg.cards) e.toNat rg rng
      (List.replicate rg.cards.length 0) = some res := by
  simp only [simulate] at h
  split at h
  · exact absurd h (by simp)
  · split at h
    · exact absurd h (by simp)
    case h_2 res1 heq =>
      simp only [Except.ok.injEq] at h
      rw [← h]
      exact heq

/-! Claim theorems. -/

/-- C1: for every completed run of `simulate` over a card sequence with at
least one lab card and any experiment count, the sum of the per-card counts
is at most the number of experiments, with equality exactly when every
trial's traversal returned a matched card (no trial exhausted the 100-step
budget without matching). -/
theorem simulate_sum_bound (rg : Ring) (rng : Rng) (e : Int) (res : SimResult)
    (_hlab : lab_indices rg.cards ≠ []) (_he : 0 ≤ e)
    (hrun : simulate rg rng e = .ok res) :
    res.points.sum ≤ e.toNat ∧
    (res.points.sum = e.toNat ↔
      ∀ k < e.toNat, ∃ i,
        trial_outcome rg (lab_indices rg.cards) rng k = some (some i)) := by
  have hloop := simulate_ok_elim rg rng e res hrun
  obtain ⟨-, -, -, hle, hiff⟩ :=
    simulate_loop_spec e.toNat rg rng (List.replicate rg.cards.length 0)
      (lab_indices rg.cards) res hloop
  have hz : (List.replicate rg.cards.length (0 : Nat)).sum = 0 := by simp
  rw [hz, Nat.zero_add] at hle hiff
  exact ⟨hle, hiff⟩

/-- C1 witness: a completed two-trial run on the demo ring. -/
theorem simulate_sum_bound_witness :
    ∃ res, simulate demoRing demoRng 2 = .ok res ∧
      (res.points.sum ≤ (2 : Int).toNat ∧
       (res.points.sum = (2 : Int).toNat ↔
        ∀ k < (2 : Int).toNat, ∃ i,
          trial_outcome demoRing (lab_indices demoRing.cards) demoRng k =
            some (some i))) :=
  ⟨_, rfl, simulate_sum_bound demoRing demoRng 2 _ (by decide) (by decide) rfl⟩

/-- C2: with no lab card among the cards (whatever else they are), `simulate`
fails with the structural "no entry points" error, for every random source
and every experiment count, before running any trial or drawing anything. -/
theorem simulate_no_labs (cards : List Card) (w : Wiring) (rng : Rng) (e : Int)
    (h : ∀ c ∈ cards, is_lab c = false) :
    simulate ⟨cards, w⟩ rng e =
      .error "No lab cards available to start experiments." := by
  have hl : lab_indices cards = [] := by
    unfold lab_indices
    rw [List.filter_eq_nil_iff]
    intro i hi
    have hilen : i < cards.length := List.mem_range.mp hi
    have hm : cards.getD i default ∈ cards := by
      rw [List.getD_eq_getElem _ _ hilen]
      exact List.getElem_mem hilen
    simpa using h _ hm
  simp only [simulate]
  simp [hl]

/-- C2 witness: a vent-and-amoeba ring with no lab card. -/
theorem simulate_no_labs_witness :
    simulate ⟨[⟨.vent, 1⟩, ⟨.amoeba ⟨.RED, .STRIPED, .SINGLE⟩, 2⟩], unwired⟩
        demoRng 7 =
      .error "No lab cards available to start experiments." :=
  simulate_no_labs _ unwired demoRng 7 (by decide)

/-- C9: no card is mutated: a traversal returns the ring (cards, identities,
payloads and both neighbor relations) unchanged, and a completed `simulate`
run returns the ring it was given; only the traveling configuration (and the
random source) evolve. -/
theorem cards_never_mutated :
    (∀ (dir : Direction) (f : Nat) (s : SimState) (cur : Nat)
        (res : Option Nat × SimState),
      run_experiment_aux dir f s cur = some res → res.2.ring = s.ring) ∧
    (∀ (rg : Ring) (rng : Rng) (e : Int) (res : SimResult),
      simulate rg rng e = .ok res → res.ring = rg) := by
  constructor
  · exact run_experiment_aux_ring
  · intro rg rng e res h
    exact (simulate_loop_spec _ _ _ _ _ _ (simulate_ok_elim rg rng e res h)).1

/-- C9 witness: one traversal and one completed run on the demo ring. -/
theorem cards_never_mutated_witness :
    (∃ res, run_experiment_aux .CLK_WISE MAX_STEPS_PER_RUN
        ⟨demoRing, ⟨.RED, .STRIPED, .SINGLE⟩⟩ 0 = some res ∧
      res.2.ring = demoRing) ∧
    (∃ res, simulate demoRing demoRng 2 = .ok res ∧ res.ring = demoRing) :=
  ⟨⟨_, rfl, cards_never_mutated.1 .CLK_WISE MAX_STEPS_PER_RUN
      ⟨demoRing, ⟨.RED, .STRIPED, .SINGLE⟩⟩ 0 _ rfl⟩,
   ⟨_, rfl, cards_never_mutated.2 demoRing demoRng 2 _ rfl⟩⟩

/-- C10: with at least one lab card and a nonpositive experiment count,
`simulate` runs zero trials, leaves the random source untouched, and returns
the mapping holding every card of the sequence with count 0. -/
theorem simulate_nonpositive (rg : Ring) (rng : Rng) (e : Int)
    (hlab : lab_indices rg.cards ≠ []) (he : e ≤ 0) :
    simulate rg rng e = .ok ⟨List.replicate rg.cards.length 0, rg, rng⟩ := by
  simp only [simulate]
  have h1 : (lab_indices rg.cards).isEmpty = false :=
    List.isEmpty_eq_false.mpr hlab
  have h2 : e.toNat = 0 := by omega
  rw [h1, h2]
  simp [simulate_loop]

/-- C10 witness: a run with experiment count `-3` on the demo ring. -/
theorem simulate_nonpositive_witness :
    simulate demoRing demoRng (-3) =
      .ok ⟨List.replicate demoRing.cards.length 0, demoRing, demoRng⟩ :=
  simulate_nonpositive demoRing demoRng (-3) (by decide) (by decide)

theorem run_trial_agree (rg : Ring) (labs : List Nat) (r1 r2 : Rng)
    (h : ∀ j < 5, r1.draws (r1.pos + j) = r2.draws (r2.pos + j)) :
    (run_trial rg labs r1 = none ∧ run_trial rg labs r2 = none) ∨
    ∃ m ring1, run_trial rg labs r1 = some (m, ring1, ⟨r1.draws, r1.pos + 5⟩) ∧
      run_trial rg labs r2 = some (m, ring1, ⟨r2.draws, r2.pos + 5⟩) := by
  have e0 : r1.draws r1.pos = r2.draws r2.pos := by
    have := h 0 (by omega)
    simpa using this
  have e1 : r1.draws (r1.pos + 1) = r2.draws (r2.pos + 1) := h 1 (by omega)
  have e2 : r1.draws (r1.pos + 1 + 1) = r2.draws (r2.pos + 1 + 1) :=
    h 2 (by omega)
  have e3 : r1.draws (r1.pos + 1 + 1 + 1) = r2.draws (r2.pos + 1 + 1 + 1) :=
    h 3 (by omega)
  have e4 : r1.draws (r1.pos + 1 + 1 + 1 + 1) =
      r2.draws (r2.pos + 1 + 1 + 1 + 1) := h 4 (by omega)
  simp only [run_trial, Rng.choice]
  rw [e0, e1, e2, e3, e4]
  cases hre : run_experiment rg
      ⟨AmoebaColor.members.getD (r2.draws r2.pos % AmoebaColor.members.length)
          default,
        Pattern.members.getD (r2.draws (r2.pos + 1) % Pattern.members.length)
          default,
        Eye.members.getD (r2.draws (r2.pos + 1 + 1) % Eye.members.length)
          default⟩
      (labs.getD (r2.draws (r2.pos + 1 + 1 + 1) % labs.length) default)
      (Direction.members.getD
        (r2.draws (r2.pos + 1 + 1 + 1 + 1) % Direction.members.length)
        default) with
  | none => exact Or.inl ⟨rfl, rfl⟩
  | some pr => exact Or.inr ⟨pr.1, pr.2.ring, rfl, rfl⟩

theorem simulate_loop_agree :
    ∀ (k : Nat) (rg : Ring) (labs points : List Nat) (r1 r2 : Rng),
    (∀ j < 5 * k, r1.draws (r1.pos + j) = r2.draws (r2.pos + j)) →
    (simulate_loop labs k rg r1 points = none ∧
      simulate_loop labs k rg r2 points = none) ∨
    (∃ res1 res2, simulate_loop labs k rg r1 points = some res1 ∧
      simulate_loop labs k rg r2 points = some res2 ∧
      res1.points = res2.points ∧ res1.ring = res2.ring) := by
  intro k
  induction k with
  | zero =>
    intro rg labs points r1 r2 _h
    exact Or.inr ⟨⟨points, rg, r1⟩, ⟨points, rg, r2⟩, rfl, rfl, rfl, rfl⟩
  | succ k ih =>
    intro rg labs points r1 r2 h
    rcases run_trial_agree rg labs r1 r2 (fun j hj => h j (by omega)) with
      ⟨hn1, hn2⟩ | ⟨m, ring1, h1, h2⟩
    · left
      constructor <;> simp [simulate_loop, hn1, hn2]
    · have hrest : ∀ j < 5 * k,
          (Rng.mk r1.draws (r1.pos + 5)).draws ((Rng.mk r1.draws (r1.pos + 5)).pos + j) =
          (Rng.mk r2.draws (r2.pos + 5)).draws ((Rng.mk r2.draws (r2.pos + 5)).pos + j) := by
        intro j hj
        show r1.draws (r1.pos + 5 + j) = r2.draws (r2.pos + 5 + j)
        have := h (5 + j) (by omega)
        rw [← Nat.add_assoc] at this
        rw [← Nat.add_assoc] at this
        exact this
      cases hb : bump points m with
      | none => left; constructor <;> simp [simulate_loop, h1, h2, hb]
      | some points1 =>
        rcases ih ring1 labs points1 ⟨r1.draws, r1.pos + 5⟩ ⟨r2.draws, r2.pos + 5⟩
            hrest with ⟨hc1, hc2⟩ | ⟨res1, res2, hc1, hc2, hpts, hring⟩
        · left
          constructor <;> simp [simulate_loop, h1, h2, hb, hc1, hc2]
        · right
          refine ⟨res1, res2, ?_, ?_, hpts, hring⟩ <;>
            simp [simulate_loop, h1, h2, hb, hc1, hc2]

/-- C5: `simulate` is reproducible: two random sources that agree on the
next `5 * experiments` draws produce identical per-card counts (in
particular identically seeded sources do), and a completed run consumes
exactly five draws per trial, strictly sequentially, so its final cursor
sits exactly `5 * experiments` past the initial one; within a trial the
five draws are consumed in the fixed order color, pattern, eye, lab,
direction (`run_trial`). -/
theorem simulate_reproducible (rg : Ring) (e : Int) (r1 r2 : Rng)
    (hagree : ∀ j < 5 * e.toNat, r1.draws (r1.pos + j) = r2.draws (r2.pos + j)) :
    (simulate rg r1 e).map (fun res => res.points) =
      (simulate rg r2 e).map (fun res => res.points) ∧
    ∀ res, simulate rg r1 e = .ok res →
      res.rng = ⟨r1.draws, r1.pos + 5 * e.toNat⟩ := by
  constructor
  · simp only [simulate]
    cases hemp : (lab_indices rg.cards).isEmpty
    · simp only [Bool.false_eq_true, if_false]
      rcases simulate_loop_agree e.toNat rg (lab_indices rg.cards)
          (List.replicate rg.cards.length 0) r1 r2 hagree with
        ⟨hc1, hc2⟩ | ⟨res1, res2, hc1, hc2, hpts, -⟩
      · rw [hc1, hc2]
      · rw [hc1, hc2]
        simp [Except.map, hpts]
    · simp
  · intro res h
    exact (simulate_loop_spec _ _ _ _ _ _ (simulate_ok_elim rg r1 e res h)).2.1

/-- C5 witness: two different random sources, at different cursors, agreeing
on the ten draws two trials consume. -/
theorem simulate_reproducible_witness :
    (∀ j < 5 * (2 : Int).toNat,
      (Rng.mk (fun i => i) 3).draws ((Rng.mk (fun i => i) 3).pos + j) =
      (Rng.mk (fun i => if i < 10 then i + 3 else 0) 0).draws
        ((Rng.mk (fun i => if i < 10 then i + 3 else 0) 0).pos + j)) ∧
    ((simulate demoRing ⟨fun i => i, 3⟩ 2).map (fun res => res.points) =
      (simulate demoRing ⟨fun i => if i < 10 then i + 3 else 0, 0⟩ 2).map
        (fun res => res.points) ∧
     ∀ res, simulate demoRing ⟨fun i => i, 3⟩ 2 = .ok res →
       res.rng = ⟨fun i => i, 3 + 5 * (2 : Int).toNat⟩) :=
  ⟨by decide,
   simulate_reproducible demoRing 2 ⟨fun i => i, 3⟩
     ⟨fun i => if i < 10 then i + 3 else 0, 0⟩ (by decide)⟩

/-- C8: `evolve` restricted to a single axis advances exactly that axis to
the cyclically next value in declaration order and leaves the other two
axes unchanged; since each axis has two values, applying it twice restores
the original configuration (period exactly 2: one application never gives
back the original). -/
theorem evolve_single_axis_cycles (cfg : Configuration) :
    ((cfg.evolve true false false).color = specNextColor cfg.color ∧
     (cfg.evolve true false false).pattern = cfg.pattern ∧
     (cfg.evolve true false false).eye = cfg.eye ∧
     (cfg.evolve true false false).evolve true false false = cfg ∧
     cfg.evolve true false false ≠ cfg) ∧
    ((cfg.evolve false true false).pattern = specNextPattern cfg.pattern ∧
     (cfg.evolve false true false).color = cfg.color ∧
     (cfg.evolve false true false).eye = cfg.eye ∧
     (cfg.evolve false true false).evolve false true false = cfg ∧
     cfg.evolve false true false ≠ cfg) ∧
    ((cfg.evolve false false true).eye = specNextEye cfg.eye ∧
     (cfg.evolve false false true).color = cfg.color ∧
     (cfg.evolve false false true).pattern = cfg.pattern ∧
     (cfg.evolve false false true).evolve false false true = cfg ∧
     cfg.evolve false false true ≠ cfg) := by
  rcases cfg with ⟨c, p, y⟩
  cases c <;> cases p <;> cases y <;> decide

instance fully_wired_decidable (w : Wiring) (n : Nat) :
    Decidable (fully_wired w n) :=
  inferInstanceAs (Decidable (∀ i < n, (w.clk i).getD n < n ∧ (w.ccw i).getD n < n))

theorem get_next_of_wired (w : Wiring) (n i : Nat) (dir : Direction)
    (hw : fully_wired w n) (hi : i < n) :
    ∃ j, get_next w i dir = some j ∧ j < n := by
  obtain ⟨h1, h2⟩ := hw i hi
  cases dir with
  | CLK_WISE =>
    cases hc : w.clk i with
    | none => rw [hc] at h1; simp at h1
    | some j =>
      rw [hc] at h1
      exact ⟨j, hc, by simpa using h1⟩
  | COUNTER_CLK_WISE =>
    cases hc : w.ccw i with
    | none => rw [hc] at h2; simp at h2
    | some j =>
      rw [hc] at h2
      exact ⟨j, hc, by simpa using h2⟩

theorem run_experiment_aux_first_match (rg : Ring) (dir : Direction)
    (hw : fully_wired rg.w rg.cards.length) :
    ∀ (f cur : Nat) (cfg : Configuration), cur < rg.cards.length →
    ∃ res, run_experiment_aux dir f ⟨rg, cfg⟩ cur = some res ∧
      (∀ i, res.1 = some i →
        ∃ k < f, ∃ st, visit_after rg dir k (cur, cfg) = some st ∧
          st.1 = i ∧ matched_at rg st = true ∧
          ∀ j < k, ∀ st2, visit_after rg dir j (cur, cfg) = some st2 →
            matched_at rg st2 = false) ∧
      (res.1 = none →
        ∀ k < f, ∀ st, visit_after rg dir k (cur, cfg) = some st →
          matched_at rg st = false) := by
  intro f
  induction f with
  | zero =>
    intro cur cfg hcur
    refine ⟨(none, ⟨rg, cfg⟩), rfl, ?_, ?_⟩
    · intro i hi
      exact absurd hi (by simp)
    · intro _ k hk
      omega
  | succ f ih =>
    intro cur cfg hcur
    rcases hpr : is_matched ⟨rg, cfg⟩ cur with ⟨m, s1⟩
    have hs1r : s1.ring = rg := by
      have := is_matched_ring ⟨rg, cfg⟩ cur
      rw [hpr] at this
      exact this
    have hs1 : s1 = ⟨rg, s1.cfg⟩ := by
      rw [← hs1r]
    have hmat : matched_at rg (cur, cfg) = m := by
      simp only [matched_at, hpr]
    cases m with
    | true =>
      refine ⟨(some cur, s1), by simp only [run_experiment_aux, hpr], ?_, ?_⟩
      · intro i hi
        simp only [Option.some.injEq] at hi
        refine ⟨0, by omega, (cur, cfg), rfl, hi.symm ▸ rfl, hmat, ?_⟩
        intro j hj
        omega
      · intro hnone
        exact absurd hnone (by simp)
    | false =>
      obtain ⟨nxt, hnx, hnxlt⟩ :=
        get_next_of_wired rg.w rg.cards.length cur dir hw hcur
      have hstep : ∀ k, visit_after rg dir (k + 1) (cur, cfg) =
          visit_after rg dir k (nxt, s1.cfg) := by
        intro k
        simp only [visit_after, hnx, hpr]
      obtain ⟨res, hres, hsome, hnone⟩ := ih nxt s1.cfg hnxlt
      refine ⟨res, ?_, ?_, ?_⟩
      · simp only [run_experiment_aux, hpr, hs1r, hnx]
        rw [← hs1] at hres
        exact hres
      · intro i hi
        obtain ⟨k, hk, st, hst, hst1, hstm, hearlier⟩ := hsome i hi
        refine ⟨k + 1, by omega, st, by rw [hstep k]; exact hst, hst1, hstm, ?_⟩
        intro j hj st2 hst2
        cases j with
        | zero =>
          simp only [visit_after, Option.some.injEq] at hst2
          rw [← hst2]
          exact hmat
        | succ j =>
          rw [hstep j] at hst2
          exact hearlier j (by omega) st2 hst2
      · intro hres_none k hk st hst
        cases k with
        | zero =>
          simp only [visit_after, Option.some.injEq] at hst
          rw [← hst]
          exact hmat
        | succ k =>
          rw [hstep k] at hst
          exact hnone hres_none k (by omega) st hst

/-- C6: on a fully wired ring, every traversal terminates normally: it
checks a match on at most 100 (`MAX_STEPS_PER_RUN`) visited cards, returns
the first visited card that matches, and returns "no match" (not an error)
when all 100 checks fail. -/
theorem run_experiment_bounded_first_match (rg : Ring) (cfg : Configuration)
    (start : Nat) (dir : Direction)
    (hw : fully_wired rg.w rg.cards.length) (hs : start < rg.cards.length) :
    ∃ res, run_experiment rg cfg start dir = some res ∧
      (∀ i, res.1 = some i →
        ∃ k < MAX_STEPS_PER_RUN, ∃ st,
          visit_after rg dir k (start, cfg) = some st ∧ st.1 = i ∧
          matched_at rg st = true ∧
          ∀ j < k, ∀ st2, visit_after rg dir j (start, cfg) = some st2 →
            matched_at rg st2 = false) ∧
      (res.1 = none →
        ∀ k < MAX_STEPS_PER_RUN, ∀ st,
          visit_after rg dir k (start, cfg) = some st →
          matched_at rg st = false) :=
  run_experiment_aux_first_match rg dir hw MAX_STEPS_PER_RUN start cfg hs

/-- C6 witness: a traversal on the fully wired demo ring. -/
theorem run_experiment_bounded_first_match_witness :
    ∃ res, run_experiment demoRing ⟨.RED, .STRIPED, .SINGLE⟩ 0 .CLK_WISE =
        some res ∧
      (∀ i, res.1 = some i →
        ∃ k < MAX_STEPS_PER_RUN, ∃ st,
          visit_after demoRing .CLK_WISE k (0, ⟨.RED, .STRIPED, .SINGLE⟩) =
              some st ∧ st.1 = i ∧
          matched_at demoRing st = true ∧
          ∀ j < k, ∀ st2,
            visit_after demoRing .CLK_WISE j (0, ⟨.RED, .STRIPED, .SINGLE⟩) =
                some st2 →
            matched_at demoRing st2 = false) ∧
      (res.1 = none →
        ∀ k < MAX_STEPS_PER_RUN, ∀ st,
          visit_after demoRing .CLK_WISE k (0, ⟨.RED, .STRIPED, .SINGLE⟩) =
              some st →
          matched_at demoRing st = false) :=
  run_experiment_bounded_first_match demoRing ⟨.RED, .STRIPED, .SINGLE⟩ 0
    .CLK_WISE (by decide) (by decide)

theorem _walk_aux_first (cards : List Card) (cw : Bool) :
    ∀ (f idx j : Nat), _walk_aux cards cw f idx = some j →
    ∃ t < f, iter_index cards.length cw t idx = j ∧
      is_vent (cards.getD j default) = false ∧
      ∀ s < t,
        is_vent (cards.getD (iter_index cards.length cw s idx) default) = true := by
  intro f
  induction f with
  | zero => intro idx j h; simp [_walk_aux] at h
  | succ f ih =>
    intro idx j h
    simp only [_walk_aux] at h
    by_cases hv : is_vent (cards.getD idx default) = true
    · rw [if_pos hv] at h
      obtain ⟨t, ht, hiter, hnv, hall⟩ := ih (step_index cards.length cw idx) j h
      refine ⟨t + 1, by omega, hiter, hnv, ?_⟩
      intro s hs
      cases s with
      | zero => exact hv
      | succ s => exact hall s (by omega)
    · rw [if_neg hv] at h
      simp only [Option.some.injEq] at h
      refine ⟨0, by omega, h, ?_, fun s hs => absurd hs (by omega)⟩
      rw [← h]
      simpa using hv

theorem _walk_aux_of_nonvent (cards : List Card) (cw : Bool) :
    ∀ (f idx : Nat),
    (∃ t < f,
      is_vent (cards.getD (iter_index cards.length cw t idx) default) = false) →
    ∃ j, _walk_aux cards cw f idx = some j := by
  intro f
  induction f with
  | zero =>
    intro idx h
    obtain ⟨t, ht, -⟩ := h
    omega
  | succ f ih =>
    intro idx h
    by_cases hv : is_vent (cards.getD idx default) = true
    · obtain ⟨t, ht, hnv⟩ := h
      cases t with
      | zero => exact absurd hv (by simp [iter_index] at hnv; simp [hnv])
      | succ t =>
        obtain ⟨j, hj⟩ := ih (step_index cards.length cw idx) ⟨t, by omega, hnv⟩
        exact ⟨j, by simp only [_walk_aux]; rw [if_pos hv]; exact hj⟩
    · exact ⟨idx, by simp only [_walk_aux]; rw [if_neg hv]⟩

theorem iter_index_cw (n : Nat) (hn : 0 < n) :
    ∀ (t idx : Nat), idx < n → iter_index n true t idx = (idx + t) % n := by
  intro t
  induction t with
  | zero =>
    intro idx h
    simp [iter_index, Nat.mod_eq_of_lt h]
  | succ t ih =>
    intro idx h
    show iter_index n true t (step_index n true idx) = (idx + (t + 1)) % n
    have hst : step_index n true idx = (idx + 1) % n := rfl
    rw [hst, ih ((idx + 1) % n) (Nat.mod_lt _ hn), Nat.mod_add_mod]
    congr 1
    omega

theorem iter_index_ccw (n : Nat) (hn : 0 < n) :
    ∀ (t idx : Nat), idx < n →
    iter_index n false t idx = (idx + t * (n - 1)) % n := by
  intro t
  induction t with
  | zero =>
    intro idx h
    simp [iter_index, Nat.mod_eq_of_lt h]
  | succ t ih =>
    intro idx h
    show iter_index n false t (step_index n false idx) = (idx + (t + 1) * (n - 1)) % n
    have hst : step_index n false idx = (idx + n - 1) % n := rfl
    rw [hst, ih ((idx + n - 1) % n) (Nat.mod_lt _ hn), Nat.mod_add_mod]
    congr 1
    rw [Nat.succ_mul]
    omega

theorem exists_iter_cw (n idx m : Nat) (hidx : idx < n) (hm : m < n) :
    ∃ t < n, iter_index n true t idx = m := by
  have hn : 0 < n := by omega
  refine ⟨(m + n - idx) % n, Nat.mod_lt _ hn, ?_⟩
  rw [iter_index_cw n hn _ idx hidx]
  show (idx + (m + n - idx) % n) % n = m
  have h1 : idx + (m + n - idx) % n ≡ idx + (m + n - idx) [MOD n] :=
    Nat.ModEq.add_left idx (Nat.mod_modEq _ n)
  have h2 : idx + (m + n - idx) = m + n := by omega
  have h3 : idx + (m + n - idx) % n ≡ m [MOD n] := by
    rw [h2] at h1
    exact h1.trans (Nat.ModEq.symm (by
      show m ≡ m + n [MOD n]
      unfold Nat.ModEq
      rw [Nat.add_mod_right]))
  have := h3
  unfold Nat.ModEq at this
  rw [Nat.mod_eq_of_lt hm] at this
  exact this

theorem exists_iter_ccw (n idx m : Nat) (hidx : idx < n) (hm : m < n) :
    ∃ t < n, iter_index n false t idx = m := by
  have hn : 0 < n := by omega
  refine ⟨(idx + n - m) % n, Nat.mod_lt _ hn, ?_⟩
  rw [iter_index_ccw n hn _ idx hidx]
  show (idx + (idx + n - m) % n * (n - 1)) % n = m
  have h1 : idx + (idx + n - m) % n * (n - 1) ≡
      idx + (idx + n - m) * (n - 1) [MOD n] :=
    Nat.ModEq.add_left idx (Nat.ModEq.mul_right (n - 1) (Nat.mod_modEq _ n))
  have h2 : idx + (idx + n - m) % n * (n - 1) ≡ m [MOD n] := by
    refine h1.trans ?_
    have hcancel : idx + (idx + n - m) * (n - 1) + (idx + n - m) ≡
        m + (idx + n - m) [MOD n] := by
      have e1 : idx + (idx + n - m) * (n - 1) + (idx + n - m) =
          idx + (idx + n - m) * n := by
        have : (idx + n - m) * (n - 1) + (idx + n - m) = (idx + n - m) * n := by
          rw [← Nat.mul_succ]
          congr 1
          omega
        omega
      have e2 : m + (idx + n - m) = idx + n := by omega
      rw [e1, e2]
      unfold Nat.ModEq
      rw [Nat.add_mul_mod_self_right, Nat.add_mod_right]
    exact Nat.ModEq.add_right_cancel' (idx + n - m) hcancel
  unfold Nat.ModEq at h2
  rw [Nat.mod_eq_of_lt hm] at h2
  exact h2

theorem _walk_to_non_vent_success (cards : List Card) (cw : Bool)
    (start m : Nat) (hm : m < cards.length)
    (hnv : is_vent (cards.getD m default) = false) :
    ∃ j, _walk_to_non_vent cards start cw = some j := by
  have hn : 0 < cards.length := by omega
  have hidx : start % cards.length < cards.length := Nat.mod_lt _ hn
  apply _walk_aux_of_nonvent
  cases cw with
  | true =>
    obtain ⟨t, ht, hit⟩ := exists_iter_cw cards.length _ m hidx hm
    exact ⟨t, ht, by rw [hit]; exact hnv⟩
  | false =>
    obtain ⟨t, ht, hit⟩ := exists_iter_ccw cards.length _ m hidx hm
    exact ⟨t, ht, by rw [hit]; exact hnv⟩

theorem foldl_set_neighbors (f g : Nat → Nat) :
    ∀ (l : List Nat) (w : Wiring) (j : Nat),
    ((l.foldl (fun w i => set_neighbors w i (f i) (g i)) w).clk j =
      if j ∈ l then some (f j) else w.clk j) ∧
    ((l.foldl (fun w i => set_neighbors w i (f i) (g i)) w).ccw j =
      if j ∈ l then some (g j) else w.ccw j) := by
  intro l
  induction l with
  | nil => intro w j; simp
  | cons a t ih =>
    intro w j
    simp only [List.foldl_cons]
    obtain ⟨ihc, ihw⟩ := ih (set_neighbors w a (f a) (g a)) j
    constructor
    · rw [ihc]
      by_cases hjt : j ∈ t
      · simp [hjt]
      · by_cases hja : j = a
        · simp [hjt, hja, set_neighbors]
        · simp [hjt, hja, set_neighbors]
    · rw [ihw]
      by_cases hjt : j ∈ t
      · simp [hjt]
      · by_cases hja : j = a
        · simp [hjt, hja, set_neighbors]
        · simp [hjt, hja, set_neighbors]

theorem configure_neighbors_le_one_vent (cards : List Card)
    (hv : (vent_indices cards).length ≤ 1) (hne : cards.length ≠ 0) :
    ∃ w, configure_neighbors cards = some w ∧
      ∀ j, (j < cards.length →
              w.clk j = some ((j + 1) % cards.length) ∧
              w.ccw j = some ((j + cards.length - 1) % cards.length)) ∧
           (cards.length ≤ j → w.clk j = none ∧ w.ccw j = none) := by
  unfold configure_neighbors
  rw [if_neg hne]
  simp only [_link_vents]
  rw [if_pos hv]
  refine ⟨_, rfl, ?_⟩
  intro j
  obtain ⟨hc, hw⟩ := foldl_set_neighbors (fun i => (i + 1) % cards.length)
    (fun i => (i + cards.length - 1) % cards.length)
    (List.range cards.length) unwired j
  rw [hc, hw]
  constructor
  · intro hj
    simp [List.mem_range, hj]
  · intro hj
    have : j ∉ List.range cards.length := by
      simp [List.mem_range]; omega
    simp [this, unwired]

theorem _link_vents_aux_untouched (cards : List Card) (vs : List Nat) :
    ∀ (ps : List Nat) (w w2 : Wiring), _link_vents_aux cards vs ps w = some w2 →
    ∀ j, (∀ p ∈ ps, vs.getD p 0 ≠ j) →
      w2.clk j = w.clk j ∧ w2.ccw j = w.ccw j := by
  intro ps
  induction ps with
  | nil =>
    intro w w2 h j hj
    simp only [_link_vents_aux, Option.some.injEq] at h
    rw [← h]
    exact ⟨rfl, rfl⟩
  | cons p ps ih =>
    intro w w2 h j hj
    simp only [_link_vents_aux] at h
    split at h
    case h_1 c k heqc heqk =>
      have hne : vs.getD p 0 ≠ j := hj p (List.mem_cons_self p ps)
      obtain ⟨hc, hw⟩ := ih _ w2 h j (fun q hq => hj q (List.mem_cons_of_mem p hq))
      rw [hc, hw]
      constructor <;>
        · simp only [set_neighbors]
          rw [if_neg (Ne.symm hne)]
    case h_2 => exact absurd h (by simp)

theorem _link_vents_aux_sets (cards : List Card) (vs : List Nat) :
    ∀ (ps : List Nat) (w w2 : Wiring), _link_vents_aux cards vs ps w = some w2 →
    ps.Nodup →
    (∀ q ∈ ps, ∀ p ∈ ps, vs.getD q 0 = vs.getD p 0 → q = p) →
    ∀ p ∈ ps, ∃ c k,
      _walk_to_non_vent cards
        ((vs.getD ((p + 1) % vs.length) 0 + 1) % cards.length) true = some c ∧
      _walk_to_non_vent cards
        ((vs.getD ((p + vs.length - 1) % vs.length) 0 + cards.length - 1)
          % cards.length) false = some k ∧
      w2.clk (vs.getD p 0) = some c ∧ w2.ccw (vs.getD p 0) = some k := by
  intro ps
  induction ps with
  | nil =>
    intro w w2 h _ _ p hp
    simp at hp
  | cons p0 ps ih =>
    intro w w2 h hnd hinj p hp
    simp only [_link_vents_aux] at h
    split at h
    case h_1 c k heqc heqk =>
      rcases List.mem_cons.mp hp with rfl | hp2
      · refine ⟨c, k, heqc, heqk, ?_, ?_⟩
        all_goals {
          have hrest : ∀ q ∈ ps, vs.getD q 0 ≠ vs.getD p 0 := by
            intro q hq hEq
            have hqp : q = p :=
              hinj q (List.mem_cons_of_mem p hq) p (List.mem_cons_self p ps) hEq
            rw [hqp] at hq
            exact (List.nodup_cons.mp hnd).1 hq
          obtain ⟨hc, hw⟩ :=
            _link_vents_aux_untouched cards vs ps _ w2 h (vs.getD p 0) hrest
          first
            | (rw [hc]; simp [set_neighbors])
            | (rw [hw]; simp [set_neighbors])
        }
      · refine ih _ w2 h (List.nodup_cons.mp hnd).2 ?_ p hp2
        intro q hq p1 hp1 hEq
        exact hinj q (List.mem_cons_of_mem p0 hq) p1 (List.mem_cons_of_mem p0 hp1) hEq
    case h_2 => exact absurd h (by simp)

theorem vent_indices_lt (cards : List Card) :
    ∀ v ∈ vent_indices cards, v < cards.length := by
  intro v hv
  unfold vent_indices at hv
  exact List.mem_range.mp (List.mem_of_mem_filter hv)

theorem vent_indices_getD_inj (cards : List Card) (q p : Nat)
    (hq : q < (vent_indices cards).length) (hp : p < (vent_indices cards).length)
    (h : (vent_indices cards).getD q 0 = (vent_indices cards).getD p 0) : q = p := by
  have hnd : (vent_indices cards).Nodup :=
    List.Nodup.filter _ (List.nodup_range cards.length)
  rw [List.getD_eq_getElem _ _ hq, List.getD_eq_getElem _ _ hp] at h
  exact (List.Nodup.getElem_inj_iff hnd).mp h

/-- C4 (failing input): on a nonempty ring consisting solely of vent cards
(two suffice) the topology builder never returns: with at least two vents,
`_link_vents` runs `_walk_to_non_vent`, whose `while` loop never finds a
non-vent card and so never terminates (modelled by `none`).  This
contradicts the claim (and spec §4.1) that `configure_neighbors` always
succeeds on nonempty sequences regardless of the mix of card kinds. -/
theorem configure_neighbors_all_vents_diverges :
    configure_neighbors [⟨.vent, 1⟩, ⟨.vent, 2⟩] = none := rfl

/-- C7: on a ring with at most one vent card wired by the topology builder,
neighbor links are symmetric: whenever B is A's clockwise neighbor, A is
B's counter-clockwise neighbor, and conversely. -/
theorem neighbors_symmetric_le_one_vent (cards : List Card) (w : Wiring)
    (hv : (vent_indices cards).length ≤ 1)
    (hconf : configure_neighbors cards = some w) :
    ∀ i j, i < cards.length →
      (w.clk i = some j → w.ccw j = some i) ∧
      (w.ccw i = some j → w.clk j = some i) := by
  intro i j hi
  have hne : cards.length ≠ 0 := by omega
  obtain ⟨w2, hw2, hprop⟩ := configure_neighbors_le_one_vent cards hv hne
  rw [hconf, Option.some.injEq] at hw2
  rw [hw2]
  constructor
  · intro hclk
    obtain ⟨hci, hwi⟩ := (hprop i).1 hi
    rw [hci, Option.some.injEq] at hclk
    have hj : j < cards.length := by
      rw [← hclk]
      exact Nat.mod_lt _ (by omega)
    obtain ⟨-, hwj⟩ := (hprop j).1 hj
    rw [hwj]
    congr 1
    rw [← hclk]
    have h5 : (i + 1) % cards.length + cards.length - 1 =
        (i + 1) % cards.length + (cards.length - 1) := by omega
    rw [h5, Nat.mod_add_mod]
    have h6 : i + 1 + (cards.length - 1) = i + cards.length := by omega
    rw [h6, Nat.add_mod_right]
    exact Nat.mod_eq_of_lt hi
  · intro hccw
    obtain ⟨hci, hwi⟩ := (hprop i).1 hi
    rw [hwi, Option.some.injEq] at hccw
    have hj : j < cards.length := by
      rw [← hccw]
      exact Nat.mod_lt _ (by omega)
    obtain ⟨hcj, -⟩ := (hprop j).1 hj
    rw [hcj]
    congr 1
    rw [← hccw]
    rw [Nat.mod_add_mod]
    have h6 : i + cards.length - 1 + 1 = i + cards.length := by omega
    rw [h6, Nat.add_mod_right]
    exact Nat.mod_eq_of_lt hi

/-- C7 witness: the wired one-vent three-card ring. -/
theorem neighbors_symmetric_le_one_vent_witness :
    ∃ w, configure_neighbors demoCards3 = some w ∧
      ∀ i j, i < demoCards3.length →
        (w.clk i = some j → w.ccw j = some i) ∧
        (w.ccw i = some j → w.clk j = some i) :=
  ⟨_, rfl, fun i j hi =>
    neighbors_symmetric_le_one_vent demoCards3 _ (by decide) rfl i j hi⟩

theorem vent_indices_length_le (cards : List Card) :
    (vent_indices cards).length ≤ cards.length := by
  unfold vent_indices
  calc ((List.range cards.length).filter _).length
      ≤ (List.range cards.length).length := List.length_filter_le _ _
    _ = cards.length := List.length_range cards.length

/-- C3: after a completed `configure_neighbors`, a ring with at least two
vents routes every vent at position `p` of the ascending vent-index list
`V` as documented: its clockwise neighbor is the first non-vent card found
walking clockwise from ring index `(V[(p+1) mod |V|] + 1) mod n`
(vents skipped), its counter-clockwise neighbor the first non-vent card
found walking counter-clockwise from `(V[(p-1) mod |V|] - 1) mod n`
(Python index arithmetic, so `p - 1` is `p + |V| - 1` and `idx - 1` is
`idx + n - 1`, both cyclic); with at most one vent, every card keeps its
base neighbors `(i+1) mod n` and `(i-1) mod n`. -/
theorem configure_neighbors_vent_routing (cards : List Card) (w : Wiring)
    (hconf : configure_neighbors cards = some w) :
    (2 ≤ (vent_indices cards).length →
      ∀ p < (vent_indices cards).length,
        (∃ j, w.clk ((vent_indices cards).getD p 0) = some j ∧
          FirstNonVent cards true
            (((vent_indices cards).getD
                ((p + 1) % (vent_indices cards).length) 0 + 1)
              % cards.length) j) ∧
        (∃ j, w.ccw ((vent_indices cards).getD p 0) = some j ∧
          FirstNonVent cards false
            (((vent_indices cards).getD
                ((p + (vent_indices cards).length - 1)
                  % (vent_indices cards).length) 0
              + cards.length - 1) % cards.length) j)) ∧
    ((vent_indices cards).length ≤ 1 →
      ∀ i < cards.length,
        w.clk i = some ((i + 1) % cards.length) ∧
        w.ccw i = some ((i + cards.length - 1) % cards.length)) := by
  constructor
  · intro h2 p hp
    have hn0 : 0 < cards.length := by
      have := vent_indices_length_le cards
      omega
    unfold configure_neighbors at hconf
    rw [if_neg (by omega)] at hconf
    simp only [_link_vents] at hconf
    rw [if_neg (by omega)] at hconf
    have hinj : ∀ q ∈ List.range (vent_indices cards).length,
        ∀ p1 ∈ List.range (vent_indices cards).length,
        (vent_indices cards).getD q 0 = (vent_indices cards).getD p1 0 →
        q = p1 := by
      intro q hq p1 hp1 hEq
      exact vent_indices_getD_inj cards q p1
        (List.mem_range.mp hq) (List.mem_range.mp hp1) hEq
    obtain ⟨c, k, hwc, hwk, hclk, hccw⟩ :=
      _link_vents_aux_sets cards (vent_indices cards)
        (List.range (vent_indices cards).length) _ w hconf
        (List.nodup_range _) hinj p (List.mem_range.mpr hp)
    constructor
    · refine ⟨c, hclk, ?_⟩
      have hstart :
          ((vent_indices cards).getD
              ((p + 1) % (vent_indices cards).length) 0 + 1)
            % cards.length < cards.length := Nat.mod_lt _ hn0
      unfold _walk_to_non_vent at hwc
      rw [Nat.mod_eq_of_lt hstart] at hwc
      obtain ⟨t, -, hit, hnv, hall⟩ := _walk_aux_first cards true _ _ c hwc
      exact ⟨t, hit, hnv, hall⟩
    · refine ⟨k, hccw, ?_⟩
      have hstart :
          ((vent_indices cards).getD
              ((p + (vent_indices cards).length - 1)
                % (vent_indices cards).length) 0
            + cards.length - 1) % cards.length < cards.length :=
        Nat.mod_lt _ hn0
      unfold _walk_to_non_vent at hwk
      rw [Nat.mod_eq_of_lt hstart] at hwk
      obtain ⟨t, -, hit, hnv, hall⟩ := _walk_aux_first cards false _ _ k hwk
      exact ⟨t, hit, hnv, hall⟩
  · intro h1 i hi
    have hne : cards.length ≠ 0 := by omega
    obtain ⟨w2, hw2, hprop⟩ := configure_neighbors_le_one_vent cards h1 hne
    rw [hconf, Option.some.injEq] at hw2
    rw [hw2]
    exact (hprop i).1 hi

/-- C3 witness: the wired five-card ring with two vents. -/
theorem configure_neighbors_vent_routing_witness :
    ∃ w, configure_neighbors demoCards5 = some w ∧
      ((2 ≤ (vent_indices demoCards5).length →
        ∀ p < (vent_indices demoCards5).length,
          (∃ j, w.clk ((vent_indices demoCards5).getD p 0) = some j ∧
            FirstNonVent demoCards5 true
              (((vent_indices demoCards5).getD
                  ((p + 1) % (vent_indices demoCards5).length) 0 + 1)
                % demoCards5.length) j) ∧
          (∃ j, w.ccw ((vent_indices demoCards5).getD p 0) = some j ∧
            FirstNonVent demoCards5 false
              (((vent_indices demoCards5).getD
                  ((p + (vent_indices demoCards5).length - 1)
                    % (vent_indices demoCards5).length) 0
                + demoCards5.length - 1) % demoCards5.length) j)) ∧
      ((vent_indices demoCards5).length ≤ 1 →
        ∀ i < demoCards5.length,
          w.clk i = some ((i + 1) % demoCards5.length) ∧
          w.ccw i = some ((i + demoCards5.length - 1) % demoCards5.length))) :=
  ⟨_, rfl, configure_neighbors_vent_routing demoCards5 _ rfl⟩

end PanicLab
